import Mathlib

/-!
Verification development for `tools/build_pubs.py`.

Strings are modelled as `List Char`.  Python's regex-based substitutions are
embedded as explicit left-to-right scanners: `firstMatchAux` finds the leftmost
position where a matcher succeeds, and `regexSub` performs the global
substitution that `re.sub` does (leftmost match, replace, continue after the
match).  Loops of the source are embedded with an explicit fuel argument that
counts loop iterations; every loop of the source strictly advances its position,
so fuel `length + 1` is always sufficient (proved where a claim needs it).
-/

set_option maxRecDepth 40000

/-- Left brace character, written via its code point. -/
def lbrace : Char := Char.ofNat 123

/-- Right brace character, written via its code point. -/
def rbrace : Char := Char.ofNat 125

/-- Single-quote (apostrophe) character, written via its code point. -/
def squote : Char := Char.ofNat 39

/-- Backquote character, written via its code point. -/
def bquote : Char := Char.ofNat 96

/-- ASCII whitespace as recognized by Python's `str.strip`, `str.isspace` and
the regex class `\s` (the unicode whitespace code points, which never occur in
the repository's data, are omitted). -/
def isPySpace (c : Char) : Bool :=
  c = ' ' || c = '\t' || c = '\n' || c = '\r' || c = Char.ofNat 11 || c = Char.ofNat 12

/-- Python `str.strip()`: remove leading and trailing whitespace. -/
def pyStrip (s : List Char) : List Char :=
  ((s.dropWhile isPySpace).reverse.dropWhile isPySpace).reverse

/-- ASCII letter, the regex class `[A-Za-z]`. -/
def isAsciiLetter (c : Char) : Bool :=
  ('A' ≤ c && c ≤ 'Z') || ('a' ≤ c && c ≤ 'z')

/-- Generic leftmost-match search: try the matcher `f` on every suffix of the
input from left to right and return the index of the first suffix on which it
succeeds, together with the matcher's result.  This is the position scan that
Python's `re` engine performs. -/
def firstMatchAux {β : Type} (f : List Char → Option β) : List Char → Option (Nat × β)
  | [] =>
    match f [] with
    | some v => some (0, v)
    | none => none
  | c :: s =>
    match f (c :: s) with
    | some v => some (0, v)
    | none =>
      match firstMatchAux f s with
      | some (i, v) => some (i + 1, v)
      | none => none

/-- One global-substitution engine, fuel-indexed.  A matcher returns the length
of the text it matched together with the replacement text.  On a match at
position `i` of length `n`, output the text before the match, the replacement,
and continue on the text after the match, exactly as `re.sub` does.  Every
matcher used below consumes at least one character, so fuel `length + 1`
(supplied by `regexSub`) can never run out. -/
def regexSubFuel (f : List Char → Option (Nat × List Char)) : Nat → List Char → List Char
  | 0, s => s
  | fuel + 1, s =>
    match firstMatchAux f s with
    | none => s
    | some (i, (n, r)) => s.take i ++ r ++ regexSubFuel f fuel (s.drop (i + n))

/-- Global substitution with sufficient fuel; the embedding of `re.sub` (and of
`str.replace` via a literal matcher). -/
def regexSub (f : List Char → Option (Nat × List Char)) (s : List Char) : List Char :=
  regexSubFuel f (s.length + 1) s

/-- Matcher for a literal pattern: succeeds when `pat` is a prefix of the text,
replacing it by `rep`. -/
def litMatcher (pat rep : List Char) (s : List Char) : Option (Nat × List Char) :=
  if pat.isPrefixOf s then some (pat.length, rep) else none

/-- Python `str.replace(pat, rep)` for a nonempty `pat`: replace every
non-overlapping occurrence, left to right. -/
def strReplace (pat rep s : List Char) : List Char :=
  regexSub (litMatcher pat rep) s

/-- Python's `pat in s` substring test. -/
def containsSub (s pat : List Char) : Bool :=
  (firstMatchAux (fun t => if pat.isPrefixOf t then some () else none) s).isSome

/-! ### The LaTeX-escape table and `latex_to_unicode` (lines 16-79 of the source) -/

/-- The `LATEX_MAP` dictionary, in source order.  Each key is the character
list of the Python string literal (e.g. `"\\\"a"` is backslash, quote, `a`). -/
def LATEX_MAP : List (List Char × Char) :=
  [ (['\\', '\"', 'a'], 'ä'), (['\\', '\"', 'o'], 'ö'), (['\\', '\"', 'u'], 'ü'),
    (['\\', '\"', 'A'], 'Ä'), (['\\', '\"', 'O'], 'Ö'), (['\\', '\"', 'U'], 'Ü'),
    (['\\', squote, 'a'], 'á'), (['\\', squote, 'e'], 'é'), (['\\', squote, 'i'], 'í'),
    (['\\', squote, 'o'], 'ó'), (['\\', squote, 'u'], 'ú'),
    (['\\', bquote, 'a'], 'à'), (['\\', bquote, 'e'], 'è'), (['\\', bquote, 'i'], 'ì'),
    (['\\', bquote, 'o'], 'ò'), (['\\', bquote, 'u'], 'ù'),
    (['\\', '^', 'a'], 'â'), (['\\', '^', 'e'], 'ê'), (['\\', '^', 'i'], 'î'),
    (['\\', '^', 'o'], 'ô'), (['\\', '^', 'u'], 'û'),
    (['\\', '~', 'n'], 'ñ'), (['\\', 's', 's'], 'ß') ]

/-- Lookup in `LATEX_MAP` (Python `LATEX_MAP.get(key)`). -/
def mapLookup (k : List Char) : Option Char :=
  (LATEX_MAP.find? (fun p => p.1 = k)).map (fun p => p.2)

/-- The accent-command character class `['`^"~]` of the source's regexes. -/
def accentChars : List Char := [squote, bquote, '^', '\"', '~']

/-- Matcher for the source's first substitution,
`re.sub(r'\{(\\\\[^{}]+)\}', r'\1', text)`.  Note that `\\\\` in the raw
pattern string denotes, in regex syntax, TWO literal backslash characters; the
pattern therefore matches a left brace, two backslashes, one or more non-brace
characters, and a right brace, and the replacement keeps everything but the
braces.  (Greedy `[^{}]+` followed by the literal `}` is deterministic: the run
is the maximal brace-free run.) -/
def unwrapBracesMatcher (s : List Char) : Option (Nat × List Char) :=
  match s with
  | b :: c1 :: c2 :: t =>
    if b = lbrace && c1 = '\\' && c2 = '\\' then
      let run := t.takeWhile (fun c => !(c = lbrace || c = rbrace))
      if run.isEmpty then none
      else
        match t.drop run.length with
        | d :: _ => if d = rbrace then some (4 + run.length, '\\' :: '\\' :: run) else none
        | [] => none
    else none
  | _ => none

/-- Matcher for the source's second substitution,
`re.sub(r'\\\\([\'`^\"~])\{([A-Za-z])\}', r'\\\1\2', text)`.  Again `\\\\`
matches two literal backslashes; the pattern is two backslashes, an accent
character, a braced letter, and the replacement is one backslash, the accent
character and the letter. -/
def bracedAccentMatcher (s : List Char) : Option (Nat × List Char) :=
  match s with
  | c1 :: c2 :: a :: b :: c :: d :: _ =>
    if c1 = '\\' && c2 = '\\' && accentChars.contains a && b = lbrace
        && isAsciiLetter c && d = rbrace then
      some (6, ['\\', a, c])
    else none
  | _ => none

/-- Matcher for the accent passes `re.sub(r'\\([\'`^\"~])([A-Za-z])', repl)`
(used twice, as `accent_repl` and `final_repl`, with identical behaviour):
a backslash, an accent character and a letter; replaced by the table entry when
present, left unchanged otherwise. -/
def accentCmdMatcher (s : List Char) : Option (Nat × List Char) :=
  match s with
  | c1 :: a :: c :: _ =>
    if c1 = '\\' && accentChars.contains a && isAsciiLetter c then
      match mapLookup ['\\', a, c] with
      | some v => some (3, [v])
      | none => some (3, ['\\', a, c])
    else none
  | _ => none

/-- Matcher for `LATEX_PATTERN = \\['`^"~][A-Za-z]|\\ss|\\c\{?[A-Za-z]\}?`
with the source's `repl`: a token starting with `\c` becomes `ç`; otherwise the
token is looked up in the table and left unchanged when absent.  Alternatives
are tried left to right; the optional braces of the `\c` form are matched
greedily. -/
def latexPatternMatcher (s : List Char) : Option (Nat × List Char) :=
  match s with
  | c1 :: a :: c :: t =>
    if c1 = '\\' && accentChars.contains a && isAsciiLetter c then
      match mapLookup ['\\', a, c] with
      | some v => some (3, [v])
      | none => some (3, ['\\', a, c])
    else if c1 = '\\' && a = 's' && c = 's' then
      match mapLookup ['\\', 's', 's'] with
      | some v => some (3, [v])
      | none => some (3, ['\\', 's', 's'])
    else if c1 = '\\' && a = 'c' then
      if c = lbrace then
        match t with
        | e :: f :: _ =>
          if isAsciiLetter e then
            if f = rbrace then some (5, ['ç']) else some (4, ['ç'])
          else none
        | [e] => if isAsciiLetter e then some (4, ['ç']) else none
        | [] => none
      else if isAsciiLetter c then
        match t with
        | f :: _ => if f = rbrace then some (4, ['ç']) else some (3, ['ç'])
        | [] => some (3, ['ç'])
      else none
    else none
  | [c1, a] =>
    if c1 = '\\' && a = 'c' then none else none
  | _ => none

/-- Matcher for the last-resort pass
`re.sub(r'\\\"([A-Za-z])', lambda m: LATEX_MAP.get('\\\"' + m.group(1), m.group(0)), text)`:
a backslash, a double quote and a letter. -/
def lastResortMatcher (s : List Char) : Option (Nat × List Char) :=
  match s with
  | c1 :: a :: c :: _ =>
    if c1 = '\\' && a = '\"' && isAsciiLetter c then
      match mapLookup ['\\', '\"', c] with
      | some v => some (3, [v])
      | none => some (3, ['\\', '\"', c])
    else none
  | _ => none

/-- The normalizer `latex_to_unicode` (lines 45-79 of the source): the two
brace substitutions, the direct table replacements in table order, the
`accent_repl` pass, the `LATEX_PATTERN` pass, the `final_repl` pass, the
last-resort `\"`-pass, brace stripping, and the `\&` replacement. -/
def latex_to_unicode (text : List Char) : List Char :=
  let t1 := regexSub unwrapBracesMatcher text
  let t2 := regexSub bracedAccentMatcher t1
  let t3 := LATEX_MAP.foldl (fun t kv => strReplace kv.1 [kv.2] t) t2
  let t4 := regexSub accentCmdMatcher t3
  let t5 := regexSub latexPatternMatcher t4
  let t6 := regexSub accentCmdMatcher t5
  let t7 := regexSub lastResortMatcher t6
  let t8 := (t7.filter (fun c => c ≠ lbrace)).filter (fun c => c ≠ rbrace)
  strReplace ['\\', '&'] ['&'] t8

/-! ### The entry scanner `parse_bibtex_entries` (lines 82-149 of the source) -/

/-- A parsed record: `{"type": ..., "key": ..., "fields": ..., "raw": ...}`.
The Python dict of fields is an insertion-ordered association list with unique
keys. -/
structure Entry where
  type : List Char
  key : List Char
  fields : List (List Char × List Char)
  raw : List Char
deriving DecidableEq, Repr

/-- Python `bib.find(c, i)`: index of the first occurrence of the character `c`
at position `i` or later (`None` for Python's `-1`). -/
def findCharFrom (bib : List Char) (c : Char) (i : Nat) : Option Nat :=
  match firstMatchAux
      (fun s => match s with
        | d :: _ => if d = c then some () else none
        | [] => none)
      (bib.drop i) with
  | some (j, _) => some (i + j)
  | none => none

/-- The Python slice `bib[a : b]` (for `0 ≤ a ≤ b`). -/
def listSlice (bib : List Char) (a b : Nat) : List Char :=
  (bib.drop a).take (b - a)

/-- The brace-depth loop
`while idx < len(bib) and depth > 0: ... idx += 1`, run on the remaining text;
returns the number of characters consumed and the final depth.  The loop stops
either when depth reaches zero (just after consuming the matching `}`) or at
the end of the text. -/
def scanDepth : List Char → Nat → Nat × Nat
  | [], depth => (0, depth)
  | c :: rest, depth =>
    if depth = 0 then (0, 0)
    else
      let d := if c = lbrace then depth + 1 else if c = rbrace then depth - 1 else depth
      let p := scanDepth rest d
      (p.1 + 1, p.2)

/-- The anchored field-name match `re.match(r"([a-zA-Z0-9_\-]+)\s*=", ...)`:
a maximal nonempty run of name characters, optional whitespace, then `=`.
Returns the name and the total number of characters matched (Python `m.end()`).
Backtracking cannot help this pattern: name characters are neither whitespace
nor `=`, so the greedy runs are forced. -/
def matchFieldName (s : List Char) : Option (List Char × Nat) :=
  let isNameChar : Char → Bool := fun c =>
    ('a' ≤ c && c ≤ 'z') || ('A' ≤ c && c ≤ 'Z') || ('0' ≤ c && c ≤ '9') || c = '_' || c = '-'
  let name := s.takeWhile isNameChar
  if name.isEmpty then none
  else
    let rest := s.drop name.length
    let ws := rest.takeWhile isPySpace
    match rest.drop ws.length with
    | d :: _ => if d = '=' then some (name, name.length + ws.length + 1) else none
    | [] => none

/-- The characters skipped before each field: `entry_body[pos] in " \t\n,"`. -/
def isSkipChar (c : Char) : Bool :=
  c = ' ' || c = '\t' || c = '\n' || c = ','

/-- Python dict assignment `fields[field] = value`: replace in place when the
key exists (keeping its position), append otherwise. -/
def dictInsert (d : List (List Char × List Char)) (k v : List Char) :
    List (List Char × List Char) :=
  if d.any (fun p => p.1 = k) then d.map (fun p => if p.1 = k then (p.1, v) else p)
  else d ++ [(k, v)]

/-- Python `fields.get(name, "")`. -/
def dictGet (d : List (List Char × List Char)) (k : List Char) : List Char :=
  match d.find? (fun p => p.1 = k) with
  | some p => p.2
  | none => []

/-- The field loop of the parser (lines 108-146), on the remaining body text.
Each iteration skips separator characters, matches a field name, skips
whitespace, and reads a brace-delimited, quote-delimited or bare value; it
stops when the text runs out or the name pattern fails to match.  Each
iteration consumes at least the name and the `=`, so the fuel supplied by
`parse_bibtex_entries` never runs out. -/
def parseFields : Nat → List Char → List (List Char × List Char) →
    List (List Char × List Char)
  | 0, _, acc => acc
  | fuel + 1, s, acc =>
    let s1 := s.dropWhile isSkipChar
    if s1.isEmpty then acc
    else
      match matchFieldName s1 with
      | none => acc
      | some (name, consumed) =>
        let s3 := (s1.drop consumed).dropWhile isPySpace
        match s3 with
        | [] => acc
        | c :: t =>
          if c = lbrace then
            let p := scanDepth t 1
            let value := t.take (p.1 - 1)
            parseFields fuel (t.drop p.1)
              (dictInsert acc (name.map Char.toLower) (pyStrip value))
          else if c = '\"' then
            let value := t.takeWhile (fun d => d ≠ '\"')
            parseFields fuel (t.drop (value.length + 1))
              (dictInsert acc (name.map Char.toLower) (pyStrip value))
          else
            let value := s3.takeWhile (fun d => !(d = ',' || d = '\n'))
            parseFields fuel (s3.drop value.length)
              (dictInsert acc (name.map Char.toLower) (pyStrip (pyStrip value)))

/-- The end of the entry that starts at the `@` at position `a0`: the parser's
`find`/`find`/brace-depth computation.  Returns the index one past the matching
closing brace (or the end of text) and the final depth (`0` exactly when the
entry's brace was closed). -/
def entryEnd (bib : List Char) (a0 : Nat) : Option (Nat × Nat) :=
  match findCharFrom bib lbrace a0 with
  | none => none
  | some j =>
    match findCharFrom bib ',' j with
    | none => none
    | some k =>
      let p := scanDepth (bib.drop (k + 1)) 1
      some (k + 1 + p.1, p.2)

/-- The outer entry loop of `parse_bibtex_entries` (lines 85-148), fuel-indexed.
`none` would mean the fuel ran out; the loop strictly advances `i`, so the fuel
supplied by `parse_bibtex_entries` is always sufficient (theorem below). -/
def parseLoop (bib : List Char) : Nat → Nat → List Entry → Option (List Entry)
  | 0, _, _ => none
  | fuel + 1, i, acc =>
    match findCharFrom bib '@' i with
    | none => some acc
    | some a0 =>
      match findCharFrom bib lbrace a0 with
      | none => some acc
      | some j =>
        match findCharFrom bib ',' j with
        | none => some acc
        | some k =>
          let p := scanDepth (bib.drop (k + 1)) 1
          let idx := k + 1 + p.1
          let entryType := (pyStrip (listSlice bib (a0 + 1) j)).map Char.toLower
          let key := pyStrip (listSlice bib (j + 1) k)
          let body := pyStrip (listSlice bib (k + 1) (idx - 1))
          let fields := parseFields (body.length + 1) body []
          let raw := listSlice bib a0 idx
          parseLoop bib fuel idx (acc ++ [⟨entryType, key, fields, raw⟩])

/-- The parser `parse_bibtex_entries`, with its always-sufficient fuel. -/
def parse_bibtex_entries (bib : List Char) : Option (List Entry) :=
  parseLoop bib (bib.length + 1) 0 []

/-- The parsed record list (the value `parse_bibtex_entries` always returns). -/
def parseEntries (bib : List Char) : List Entry :=
  (parse_bibtex_entries bib).getD []

/-! ### `format_authors` (lines 152-162 of the source) -/

/-- The separator token `" and "`. -/
def sepAnd : List Char := " and ".data

/-- Python `s.split(sep)` for a nonempty separator: split on the leftmost
occurrence and continue on the text after it; a text with no occurrence is a
single part.  Fuel-indexed; each step consumes at least the separator, so the
fuel supplied by `splitOnToken` never runs out. -/
def splitFuel (sep : List Char) : Nat → List Char → List (List Char)
  | 0, s => [s]
  | fuel + 1, s =>
    match firstMatchAux (fun t => if sep.isPrefixOf t then some () else none) s with
    | none => [s]
    | some (i, _) => s.take i :: splitFuel sep fuel (s.drop (i + sep.length))

/-- Python `s.split(sep)` with sufficient fuel. -/
def splitOnToken (sep s : List Char) : List (List Char) :=
  splitFuel sep (s.length + 1) s

/-- Python `", ".join`. -/
def joinSep (sep : List Char) : List (List Char) → List Char
  | [] => []
  | [x] => x
  | x :: y :: t => x ++ sep ++ joinSep sep (y :: t)

/-- One author name, as the loop body of `format_authors` renders it: a part
containing a comma is split at the first comma into `last, first` (each
stripped) and reassembled as `(first + " " + last).strip()`; a part without a
comma is kept as is. -/
def formatOne (part : List Char) : List Char :=
  if part.contains ',' then
    let l := pyStrip (part.takeWhile (fun c => c ≠ ','))
    let f := pyStrip ((part.dropWhile (fun c => c ≠ ',')).drop 1)
    pyStrip (f ++ ' ' :: l)
  else part

/-- The author-list formatter `format_authors`: replace newlines by spaces,
split on `" and "`, strip each part and drop empty ones, convert each part,
and join with `", "`. -/
def format_authors (author_str : List Char) : List Char :=
  let parts :=
    (((splitOnToken sepAnd (author_str.map (fun c => if c = '\n' then ' ' else c))).map
      pyStrip).filter (fun p => !p.isEmpty))
  joinSep (", ".data) (parts.map formatOne)

/-- Spec-side author-name conversion, for the refinement claim.  Stated from
the spec's words: each author is either `"Last, First"` or `"First Last"`;
every `"Last, First"` name is converted to `"First Last"` order and a name
without a comma passes through unchanged. -/
def displayNameSpec (name : List Char) : List Char :=
  if name.contains ',' then
    pyStrip ((name.dropWhile (fun c => c ≠ ',')).drop 1) ++ ' '
      :: pyStrip (name.takeWhile (fun c => c ≠ ','))
  else name

/-! ### `year_key` (lines 298-300 of the source) -/

/-- Digit-string to number (the value Python's `int` returns on an all-digit
string). -/
def intOfDigits (l : List Char) : Nat :=
  l.foldl (fun n c => n * 10 + (c.toNat - 48)) 0

/-- No two adjacent underscores (part of CPython's integer-literal grammar). -/
def noDoubleUnderscore : List Char → Bool
  | '_' :: '_' :: _ => false
  | _ :: t => noDoubleUnderscore t
  | [] => true

/-- CPython `int(str)` validity for the digit part (after an optional sign):
nonempty, decimal digits with single underscores allowed only between digits. -/
def validIntBody (l : List Char) : Bool :=
  match l with
  | [] => false
  | c :: _ =>
    c.isDigit && (l.getLastD '0').isDigit
      && l.all (fun d => d.isDigit || d = '_') && noDoubleUnderscore l

/-- CPython `int(s)` on a string: strip whitespace, optional sign, then a valid
digit body; `none` models the `ValueError` that any other input raises. -/
def pythonInt (s : List Char) : Option Int :=
  let t := pyStrip s
  match t with
  | c :: r =>
    if c = '+' then (if validIntBody r then some (intOfDigits (r.filter (fun d => d ≠ '_'))) else none)
    else if c = '-' then (if validIntBody r then some (-(intOfDigits (r.filter (fun d => d ≠ '_')) : Int)) else none)
    else if validIntBody t then some (intOfDigits (t.filter (fun d => d ≠ '_'))) else none
  | [] => none

/-- The sort key `year_key` of `build_all_bib`:
`int(re.sub(r"\\D", "", y) or 0)` where `y` is the stripped year field.  In the
raw string `r"\\D"` the regex engine sees `\\D`, i.e. a literal backslash
followed by a literal `D` — not the non-digit class `\D` — so the substitution
only deletes literal `\D` pairs.  `or 0` turns an empty result into the integer
`0`; any other non-numeric residue reaches `int()` and raises `ValueError`,
modelled by `none`. -/
def year_key (e : Entry) : Option Int :=
  let y := pyStrip (dictGet e.fields ("year".data))
  let s := strReplace ['\\', 'D'] [] y
  if s.isEmpty then some 0 else pythonInt s

/-! ### The grouping step of `build_pubs_html` (lines 179-193 of the source) -/

/-- The stripped `year` field of a record: `e["fields"].get("year", "").strip()`. -/
def stripYear (e : Entry) : List Char :=
  pyStrip (dictGet e.fields ("year".data))

/-- Appending a record to its year bucket: `by_year.setdefault(year, []).append(e)`
on an insertion-ordered dict. -/
def addToGroups (d : List (List Char × List Entry)) (y : List Char) (e : Entry) :
    List (List Char × List Entry) :=
  if d.any (fun p => p.1 = y) then
    d.map (fun p => if p.1 = y then (p.1, p.2 ++ [e]) else p)
  else d ++ [(y, [e])]

/-- The `by_year` dict-building loop of `build_pubs_html`: records lacking a
(stripped) year are skipped, the rest are appended to their year's bucket. -/
def by_year (entries : List Entry) : List (List Char × List Entry) :=
  entries.foldl
    (fun d e =>
      let y := stripYear e
      if y.isEmpty then d else addToGroups d y e)
    []

/-- The numeric value of a year key:
`int(re.sub(r"\D", "", y) or 0)` — here the pattern really is the non-digit
class, so all non-digits are stripped and an empty result defaults to zero. -/
def yearNum (y : List Char) : Nat :=
  intOfDigits (y.filter Char.isDigit)

/-- Stable descending insertion by `yearNum` of the key: the new group goes
after every existing group with a key at least as large, which is the order
Python's stable `sorted(..., reverse=True)` produces. -/
def insertDesc (p : List Char × List Entry) :
    List (List Char × List Entry) → List (List Char × List Entry)
  | [] => [p]
  | q :: t => if yearNum p.1 ≤ yearNum q.1 then q :: insertDesc p t else p :: q :: t

/-- The grouped, ordered year buckets that `build_pubs_html` renders, in
rendering order: the `by_year` groups sorted by descending numeric year
(`years = sorted(by_year.keys(), key=..., reverse=True)` followed by the
`by_year[y]` lookups).  The HTML text built around each bucket (lines 188-268)
is display-only and not modelled. -/
def build_pubs_groups (entries : List Entry) : List (List Char × List Entry) :=
  (by_year entries).foldl (fun acc p => insertDesc p acc) []

/-! ### `inject_pubs` (lines 271-284 of the source) -/

/-- The start sentinel marker. -/
def pubsStartM : List Char := "<!-- PUBS_START -->".data

/-- The end sentinel marker. -/
def pubsEndM : List Char := "<!-- PUBS_END -->".data

/-- Matcher for `(<!-- PUBS_START -->)(.*?)(<!-- PUBS_END -->)` with
`re.DOTALL` and the replacement `\1\n + pubs_html + \n\3`: the start marker,
the shortest middle (lazy `.*?`) up to the next end marker, and the end marker.
The replacement template inserts the fragment literally; this is faithful for
fragments containing no backslash (a backslash in a `re.sub` template would be
processed as an escape). -/
def markerMatcher (frag : List Char) (s : List Char) : Option (Nat × List Char) :=
  if pubsStartM.isPrefixOf s then
    match firstMatchAux (fun t => if pubsEndM.isPrefixOf t then some () else none)
        (s.drop pubsStartM.length) with
    | some (m, _) =>
      some (pubsStartM.length + m + pubsEndM.length,
        pubsStartM ++ '\n' :: (frag ++ '\n' :: pubsEndM))
    | none => none
  else none

/-- The fallback container opening `<div class="pubs">`. -/
def fallbackOpen : List Char := "<div class=\"pubs\">".data

/-- Consume a literal at the head of the text, returning the remainder. -/
def expectLit (pat s : List Char) : Option (List Char) :=
  if pat.isPrefixOf s then some (s.drop pat.length) else none

/-- Anchored match of the fallback pattern's second group
`</div>\s*</div>\s*</div>\s*</header>` at the head of the text; returns the
number of characters matched.  The greedy `\s*` runs are deterministic because
each following literal starts with a non-whitespace character. -/
def tailMatchAt (t : List Char) : Option Nat :=
  match expectLit ("</div>".data) t with
  | none => none
  | some r1 =>
    match expectLit ("</div>".data) (r1.dropWhile isPySpace) with
    | none => none
    | some r2 =>
      match expectLit ("</div>".data) (r2.dropWhile isPySpace) with
      | none => none
      | some r3 =>
        match expectLit ("</header>".data) (r3.dropWhile isPySpace) with
        | none => none
        | some r4 => some (t.length - r4.length)

/-- Matcher for the fallback pattern
`(<div class="pubs">).*?(</div>\s*</div>\s*</div>\s*</header>)` with `re.DOTALL`
and the replacement `\1\n + pubs_html + \n\2`: the container opening, the
shortest middle up to a position where the closing-tag group matches, and that
group (which the replacement keeps). -/
def fallbackMatcher (frag : List Char) (s : List Char) : Option (Nat × List Char) :=
  if fallbackOpen.isPrefixOf s then
    match firstMatchAux tailMatchAt (s.drop fallbackOpen.length) with
    | some (m, l) =>
      some (fallbackOpen.length + m + l,
        fallbackOpen ++ '\n' :: (frag ++ '\n'
          :: ((s.drop (fallbackOpen.length + m)).take l)))
    | none => none
  else none

/-- The injector `inject_pubs`: when both sentinel markers occur somewhere in
the document, substitute on the marker pattern; otherwise substitute on the
fallback container pattern.  Either way a document without a pattern match is
returned unchanged. -/
def inject_pubs (html_text pubs_html : List Char) : List Char :=
  if containsSub html_text pubsStartM && containsSub html_text pubsEndM then
    regexSub (markerMatcher pubs_html) html_text
  else
    regexSub (fallbackMatcher pubs_html) html_text

/-! ### Concrete inputs used by the claim theorems -/

/-- The brace-wrapped accent form `\"{u}` (backslash, quote, brace, `u`, brace)
that the source's comment on line 48 says is normalized. -/
def bracedUmlautU : List Char := ['\\', '\"', lbrace, 'u', rbrace]

/-- The unwrapped umlaut-u escape `\"u`. -/
def umlautU : List Char := ['\\', '\"', 'u']

/-- The wrapping-braces form `{\"u}`. -/
def wrappedUmlautU : List Char := [lbrace, '\\', '\"', 'u', rbrace]

/-- ASCII letters, the characters covered by the regex class `[A-Za-z]`. -/
def asciiLetters : List Char :=
  ((List.range 26).map (fun i => Char.ofNat (65 + i)))
    ++ ((List.range 26).map (fun i => Char.ofNat (97 + i)))

/-- A record whose `year` field contains a non-digit character. -/
def entryBadYear : Entry :=
  ⟨"article".data, "k1".data, [("year".data, "2021a".data)], []⟩

/-- A record with a plain numeric `year` field. -/
def entryGoodYear : Entry :=
  ⟨"article".data, "k2".data, [("year".data, "2021".data)], []⟩

/-- A document that contains both sentinel markers, but with the end marker
before the start marker. -/
def docMarkersOutOfOrder : List Char :=
  "A<!-- PUBS_END -->x<!-- PUBS_START -->B".data

/-- A document with a well-ordered sentinel marker pair. -/
def docMarkersOrdered : List Char :=
  "A".data ++ pubsStartM ++ "m".data ++ pubsEndM ++ "B".data

/-- A small well-formed bibliography source for the raw-span witness. -/
def bibSmall : List Char :=
  '@' :: 'a' :: lbrace :: 'k' :: ',' :: 'x' :: '=' :: 'y' :: rbrace :: []

/-- Records with years 2021, 2019, 2021 for the grouping witness. -/
def entryY1 : Entry := ⟨"a".data, "k1".data, [("year".data, "2021".data)], []⟩

/-- Second grouping-witness record (year 2019). -/
def entryY2 : Entry := ⟨"a".data, "k2".data, [("year".data, "2019".data)], []⟩

/-- Third grouping-witness record (year 2021 again). -/
def entryY3 : Entry := ⟨"a".data, "k3".data, [("year".data, "2021".data)], []⟩

/-- What C7 asserts of a parsed record: its `raw` field is exactly the
contiguous source span `bib[a0:idx]` whose bounds the parser's own
`find`/`find`/brace-depth computation (`entryEnd`) determines, it begins at
the record's `@` marker, and — when the entry is well-formed, i.e. the
brace-depth scan closed (final depth `0`) — it ends with the matching closing
brace. -/
def rawSpanOf (bib : List Char) (e : Entry) : Prop :=
  ∃ a0 idx d, entryEnd bib a0 = some (idx, d)
    ∧ bib.drop a0 = '@' :: bib.drop (a0 + 1)
    ∧ e.raw = listSlice bib a0 idx
    ∧ e.raw.head? = some '@'
    ∧ a0 < idx ∧ idx ≤ bib.length
    ∧ (d = 0 → ∃ r0, e.raw = r0 ++ [rbrace])

/-- The record that parsing `bibSmall` produces. -/
def entrySmall : Entry :=
  ⟨"a".data, "k".data, [("x".data, "y".data)], bibSmall⟩

/-! ### The eager replacement-template check of `re.sub`

CPython compiles a replacement template that contains a backslash BEFORE
scanning for matches (`re._parser.parse_template`), so an invalid template
raises `re.error` even on a document with zero matches.  `inject_pubs` always
passes templates containing backslashes (`\1`, `\n`, `\3` resp. `\2` around
the fragment), so the check always runs.  The scanner below models exactly
the validity verdict of `parse_template`. -/

/-- Octal digit, Python's `OCTDIGITS`. -/
def isOctChar (c : Char) : Bool := '0' ≤ c && c ≤ '7'

/-- Validity of a `\g<name>` group name, as `parse_template` judges it: the
name is handed to `int()` (whitespace and underscores per CPython's grammar)
and the index must be between `0` and the pattern's group count.  An
identifier name would be looked up among named groups — the source's patterns
define none, so it is an error; identifiers can never parse as `int`, so the
`int`-failure path below delivers the same verdict. -/
def groupNameOk (gro : Nat) (name : List Char) : Bool :=
  match pythonInt name with
  | some v => decide (0 ≤ v ∧ v ≤ (gro : Int))
  | none => false

/-- The validity scan of `re._parser.parse_template` over a replacement
template, for a pattern with `gro` groups.  Fuel-indexed with one unit per
template token; every token consumes at least one character, so the fuel
`length + 1` supplied by `templateOk` never runs out.  Errors modelled:
trailing backslash; `\g` without `<`, unterminated or invalid group name;
group reference above the group count; three-digit octal escape above `0o377`;
`\` followed by an ASCII letter that is none of the escapes `a b f n r t v`.
A backslash before a non-letter (such as `\\`) and `\0` octal escapes are
valid, as are all ordinary characters. -/
def templateOkFuel (gro : Nat) : Nat → List Char → Bool
  | 0, _ => false
  | _ + 1, [] => true
  | fuel + 1, c :: rest =>
    if c = '\\' then
      match rest with
      | [] => false
      | e :: t =>
        if e = 'g' then
          match t with
          | c2 :: t2 =>
            if c2 = '<' then
              match t2.drop ((t2.takeWhile (fun d => d ≠ '>')).length) with
              | _ :: t3 =>
                if groupNameOk gro (t2.takeWhile (fun d => d ≠ '>'))
                then templateOkFuel gro fuel t3
                else false
              | [] => false
            else false
          | [] => false
        else if e = '0' then
          match t with
          | d1 :: t1 =>
            if isOctChar d1 then
              match t1 with
              | d2 :: t2 =>
                if isOctChar d2 then templateOkFuel gro fuel t2
                else templateOkFuel gro fuel t1
              | [] => true
            else templateOkFuel gro fuel t
          | [] => true
        else if e.isDigit then
          match t with
          | d2 :: t2 =>
            if d2.isDigit then
              match t2 with
              | d3 :: t3 =>
                if isOctChar e && isOctChar d2 && isOctChar d3 then
                  if (e.toNat - 48) * 64 + (d2.toNat - 48) * 8 + (d3.toNat - 48) ≤ 255
                  then templateOkFuel gro fuel t3
                  else false
                else
                  if (e.toNat - 48) * 10 + (d2.toNat - 48) ≤ gro
                  then templateOkFuel gro fuel t2
                  else false
              | [] => decide ((e.toNat - 48) * 10 + (d2.toNat - 48) ≤ gro)
            else
              if e.toNat - 48 ≤ gro then templateOkFuel gro fuel t else false
          | [] => decide (e.toNat - 48 ≤ gro)
        else if isAsciiLetter e then
          if e = 'a' || e = 'b' || e = 'f' || e = 'n' || e = 'r' || e = 't' || e = 'v'
          then templateOkFuel gro fuel t
          else false
        else templateOkFuel gro fuel t
    else templateOkFuel gro fuel rest

/-- Whether `re.sub` accepts (does not raise on) a replacement template, for a
pattern with `gro` groups. -/
def templateOk (gro : Nat) (template : List Char) : Bool :=
  templateOkFuel gro (template.length + 1) template

/-- The replacement template of the marker branch, `r"\1\n" + pubs_html +
r"\n\3"`: the raw-string pieces contribute the characters backslash-`1`,
backslash-`n` before the fragment and backslash-`n`, backslash-`3` after it. -/
def markerTemplate (frag : List Char) : List Char :=
  ['\\', '1', '\\', 'n'] ++ frag ++ ['\\', 'n', '\\', '3']

/-- The replacement template of the fallback branch, `r"\1\n" + pubs_html +
r"\n\2"`. -/
def fallbackTemplate (frag : List Char) : List Char :=
  ['\\', '1', '\\', 'n'] ++ frag ++ ['\\', 'n', '\\', '2']

/-- The injector including `re.sub`'s eager template check: `none` models the
`re.error` the template parse raises (before any scanning), in the branch the
marker test selects (3 groups in the marker pattern, 2 in the fallback
pattern).  As in `inject_pubs`, a valid template's expansion is modelled by
literal insertion of the fragment, which is faithful for fragments without a
backslash. -/
def inject_pubs_total (html_text pubs_html : List Char) : Option (List Char) :=
  if containsSub html_text pubsStartM && containsSub html_text pubsEndM then
    if templateOk 3 (markerTemplate pubs_html) then
      some (regexSub (markerMatcher pubs_html) html_text)
    else none
  else
    if templateOk 2 (fallbackTemplate pubs_html) then
      some (regexSub (fallbackMatcher pubs_html) html_text)
    else none

/-! ## Theorems -/

/-- C1.  The claim says `latex_to_unicode` is idempotent.  The code is not: on
the brace-wrapped accent `\"{u}` the substitutions that the source's own
comments (lines 46-48) say unwrap brace forms never fire — their raw-string
patterns `\\\\` demand two literal backslashes — so the first run only strips
the braces, producing the escape `\"u`, and a second run then converts it to
`ü`. -/
theorem latex_braced_umlaut_breaks_idempotence :
    latex_to_unicode (latex_to_unicode bracedUmlautU) = ['ü']
      ∧ latex_to_unicode bracedUmlautU ≠ latex_to_unicode (latex_to_unicode bracedUmlautU) := by
  decide

/-- C3.  The claim (and the comment on line 48 of the source) says the braced
accent form `\"{u}` normalizes like the unwrapped `\"u`.  The wrapping-braces
form `{\"u}` does work (the direct table replacement fires inside the braces,
which are stripped afterwards), but `\"{u}` does not: its substitution pattern
demands two literal backslashes, so the form merely loses its braces and the
two inputs produce different results. -/
theorem braced_accent_form_not_normalized :
    latex_to_unicode wrappedUmlautU = ['ü']
      ∧ latex_to_unicode umlautU = ['ü']
      ∧ latex_to_unicode bracedUmlautU = ['\\', '\"', 'u']
      ∧ latex_to_unicode bracedUmlautU ≠ latex_to_unicode umlautU := by
  decide

/-- C2.  The claim says the year-ordering step of the aggregate output returns
normally for every record.  It does not: `year_key` applies
`re.sub(r"\\D", "", y)`, whose pattern is a literal backslash followed by `D`
(not the non-digit class), so a year such as `"2021a"` reaches `int()` intact
and raises `ValueError`, aborting the run; a plain numeric year works. -/
theorem year_key_raises_on_nondigit_year :
    year_key entryBadYear = none ∧ year_key entryGoodYear = some 2021 := by
  decide

/-- C5 counterexample.  The claim says every accent-command-plus-letter escape
not present in the table passes through unchanged.  The cedilla command with
any letter contradicts it: `\cz` has no table entry, yet `LATEX_PATTERN`
matches it and the replacement turns it into `ç`, swallowing the letter. -/
theorem cedilla_escape_not_passed_through :
    mapLookup ['\\', 'c', 'z'] = none
      ∧ latex_to_unicode ['\\', 'c', 'z'] = ['ç']
      ∧ latex_to_unicode ['\\', 'c', 'z'] ≠ ['\\', 'c', 'z'] := by
  decide

/-- C5, amended.  For the five accent-command characters of the source's
regexes, an escape of the command and a letter with no table entry passes
through `latex_to_unicode` unchanged; the cedilla command followed by a letter
always yields `ç`.  (Totality holds by construction: the embedding is a total
function.) -/
theorem latex_unrecognized_accent_passthrough :
    (∀ a ∈ accentChars, ∀ c ∈ asciiLetters,
        mapLookup ['\\', a, c] = none → latex_to_unicode ['\\', a, c] = ['\\', a, c])
      ∧ (∀ c ∈ asciiLetters, latex_to_unicode ['\\', 'c', c] = ['ç']) := by
  decide

/-- Witness for the amended C5 theorem at the concrete escape `\"z`. -/
theorem latex_unrecognized_accent_passthrough_witness :
    latex_to_unicode ['\\', '\"', 'z'] = ['\\', '\"', 'z'] :=
  latex_unrecognized_accent_passthrough.1 '\"' (by decide) 'z' (by decide) (by decide)

/-! ## Lemmas about the scanning combinators -/

/-- Soundness of the leftmost-match search: the matcher succeeds, with the
reported result, on the suffix at the reported index. -/
theorem fmA_sound {β : Type} (f : List Char → Option β) :
    ∀ (l : List Char) (i : Nat) (b : β),
      firstMatchAux f l = some (i, b) → f (l.drop i) = some b := by
  intro l
  induction l with
  | nil =>
    intro i b h
    simp only [firstMatchAux] at h
    cases hf : f [] with
    | some v => rw [hf] at h; injection h with h1; cases h1; exact hf
    | none => rw [hf] at h; cases h
  | cons c s ih =>
    intro i b h
    simp only [firstMatchAux] at h
    cases hf : f (c :: s) with
    | some v =>
      rw [hf] at h; injection h with h1; cases h1; exact hf
    | none =>
      rw [hf] at h
      cases hrec : firstMatchAux f s with
      | none => rw [hrec] at h; cases h
      | some p =>
        obtain ⟨j, v⟩ := p
        rw [hrec] at h
        simp only [Option.some.injEq, Prod.mk.injEq] at h
        obtain ⟨hi, hb⟩ := h
        subst hi; subst hb
        simpa using ih j v hrec

/-- The leftmost-match index is at most the length of the text. -/
theorem fmA_le {β : Type} (f : List Char → Option β) :
    ∀ (l : List Char) (i : Nat) (b : β),
      firstMatchAux f l = some (i, b) → i ≤ l.length := by
  intro l
  induction l with
  | nil =>
    intro i b h
    simp only [firstMatchAux] at h
    cases hf : f [] with
    | some v => rw [hf] at h; injection h with h1; cases h1; simp
    | none => rw [hf] at h; cases h
  | cons c s ih =>
    intro i b h
    simp only [firstMatchAux] at h
    cases hf : f (c :: s) with
    | some v => rw [hf] at h; injection h with h1; cases h1; simp
    | none =>
      rw [hf] at h
      cases hrec : firstMatchAux f s with
      | none => rw [hrec] at h; cases h
      | some p =>
        obtain ⟨j, v⟩ := p
        rw [hrec] at h
        simp only [Option.some.injEq, Prod.mk.injEq] at h
        obtain ⟨hi, hb⟩ := h
        subst hi; subst hb
        have := ih j v hrec
        simp only [List.length_cons]
        omega

/-- Completeness of the leftmost-match search: if the matcher succeeds on any
suffix, the search finds a match. -/
theorem fmA_isSome_of {β : Type} (f : List Char → Option β) :
    ∀ (l : List Char) (j : Nat) (b : β),
      f (l.drop j) = some b → (firstMatchAux f l).isSome = true := by
  intro l
  induction l with
  | nil =>
    intro j b h
    simp only [List.drop_nil] at h
    simp only [firstMatchAux, h, Option.isSome_some]
  | cons c s ih =>
    intro j b h
    match j with
    | 0 =>
      simp only [List.drop_zero] at h
      simp only [firstMatchAux, h, Option.isSome_some]
    | j' + 1 =>
      simp only [List.drop_succ_cons] at h
      have hs := ih j' b h
      simp only [firstMatchAux]
      cases hf : f (c :: s) with
      | some v => simp
      | none =>
        cases hrec : firstMatchAux f s with
        | none => rw [hrec] at hs; cases hs
        | some p => obtain ⟨i, v⟩ := p; simp

/-- Unfolding `regexSub` when there is no match: the text is unchanged. -/
theorem regexSub_match_none (f : List Char → Option (Nat × List Char)) (s : List Char)
    (h : firstMatchAux f s = none) : regexSub f s = s := by
  simp only [regexSub, regexSubFuel, h]

/-- Unfolding `regexSub` on a match: text before the match, the replacement,
then the substitution continued after the match. -/
theorem regexSub_match_some (f : List Char → Option (Nat × List Char)) (s : List Char)
    (i n : Nat) (r : List Char)
    (h : firstMatchAux f s = some (i, (n, r))) :
    regexSub f s = s.take i ++ r ++ regexSubFuel f s.length (s.drop (i + n)) := by
  simp only [regexSub, regexSubFuel, h]

/-- A decomposition witnesses the substring test. -/
theorem containsSub_of_decomp (s pat a b : List Char) (h : s = a ++ (pat ++ b)) :
    containsSub s pat = true := by
  unfold containsSub
  apply fmA_isSome_of _ s a.length ()
  subst h
  rw [List.drop_left]
  have hp : pat.isPrefixOf (pat ++ b) = true :=
    List.isPrefixOf_iff_prefix.mpr (List.prefix_append pat b)
  simp [hp]

/-- The replacement text the marker matcher produces: the start marker, a
newline, the fragment, a newline and the end marker. -/
theorem markerMatcher_shape (frag s : List Char) (n : Nat) (r : List Char)
    (h : markerMatcher frag s = some (n, r)) :
    r = pubsStartM ++ '\n' :: (frag ++ '\n' :: pubsEndM) := by
  unfold markerMatcher at h
  split at h
  · cases hin : firstMatchAux (fun t => if pubsEndM.isPrefixOf t then some () else none)
        (s.drop pubsStartM.length) with
    | none => rw [hin] at h; cases h
    | some p =>
      obtain ⟨m, u⟩ := p
      rw [hin] at h
      simp only [Option.some.injEq, Prod.mk.injEq] at h
      exact h.2.symm
  · cases h

/-- The marker matcher succeeds on a text that starts with the start marker
and later contains the end marker. -/
theorem markerMatcher_isSome (frag s mid rest : List Char)
    (h : s = pubsStartM ++ (mid ++ (pubsEndM ++ rest))) :
    (markerMatcher frag s).isSome = true := by
  have hp : pubsStartM.isPrefixOf s = true := by
    rw [h]; exact List.isPrefixOf_iff_prefix.mpr (List.prefix_append _ _)
  have hin : (firstMatchAux (fun t => if pubsEndM.isPrefixOf t then some () else none)
      (s.drop pubsStartM.length)).isSome = true := by
    apply fmA_isSome_of _ _ mid.length ()
    rw [h, List.drop_left, List.drop_left]
    have : pubsEndM.isPrefixOf (pubsEndM ++ rest) = true :=
      List.isPrefixOf_iff_prefix.mpr (List.prefix_append _ _)
    simp [this]
  obtain ⟨p, hp2⟩ := Option.isSome_iff_exists.mp hin
  obtain ⟨m, u⟩ := p
  unfold markerMatcher
  simp only [hp, if_true, hp2, Option.isSome_some]

/-- Everything the fallback matcher's success implies: the container opening is
a prefix, the closing-group search succeeded, and the replacement is the
opening, a newline, the fragment, a newline and the matched closing group. -/
theorem fallbackMatcher_shape (frag s : List Char) (n : Nat) (r : List Char)
    (h : fallbackMatcher frag s = some (n, r)) :
    fallbackOpen.isPrefixOf s = true
      ∧ ∃ m l, firstMatchAux tailMatchAt (s.drop fallbackOpen.length) = some (m, l)
        ∧ r = fallbackOpen ++ '\n'
            :: (frag ++ '\n' :: ((s.drop (fallbackOpen.length + m)).take l)) := by
  unfold fallbackMatcher at h
  split at h
  · rename_i hpref
    cases hin : firstMatchAux tailMatchAt (s.drop fallbackOpen.length) with
    | none => rw [hin] at h; cases h
    | some p =>
      obtain ⟨m, l⟩ := p
      rw [hin] at h
      simp only [Option.some.injEq, Prod.mk.injEq] at h
      exact ⟨hpref, m, l, rfl, h.2.symm⟩
  · cases h

/-- The fallback matcher succeeds on a text that starts with the container
opening and later reaches a position where the closing group matches. -/
theorem fallbackMatcher_isSome (frag s b rest : List Char)
    (h : s = fallbackOpen ++ (b ++ rest)) (ht : (tailMatchAt rest).isSome = true) :
    (fallbackMatcher frag s).isSome = true := by
  have hp : fallbackOpen.isPrefixOf s = true := by
    rw [h]; exact List.isPrefixOf_iff_prefix.mpr (List.prefix_append _ _)
  obtain ⟨l, hl⟩ := Option.isSome_iff_exists.mp ht
  have hin : (firstMatchAux tailMatchAt (s.drop fallbackOpen.length)).isSome = true := by
    apply fmA_isSome_of _ _ b.length l
    rw [h, List.drop_left, List.drop_left]
    exact hl
  obtain ⟨p, hp2⟩ := Option.isSome_iff_exists.mp hin
  obtain ⟨m, l2⟩ := p
  unfold fallbackMatcher
  simp only [hp, if_true, hp2, Option.isSome_some]

/-- A successful closing-group match consumes at most the whole text. -/
theorem tailMatchAt_le (t : List Char) (l : Nat) (h : tailMatchAt t = some l) :
    l ≤ t.length := by
  unfold tailMatchAt at h
  split at h
  · cases h
  · split at h
    · cases h
    · split at h
      · cases h
      · split at h
        · cases h
        · simp only [Option.some.injEq] at h
          omega

/-- C4 counterexample.  The claim quantifies over every document containing
both sentinel markers.  A document in which the end marker precedes the start
marker contains both markers, so `inject_pubs` takes the marker branch, but the
pattern `(START)(.*?)(END)` has no match there: the document is returned
unchanged and the fragment does not appear in it at all. -/
theorem inject_pubs_markers_out_of_order :
    (containsSub docMarkersOutOfOrder pubsStartM
        && containsSub docMarkersOutOfOrder pubsEndM) = true
      ∧ inject_pubs docMarkersOutOfOrder ("FRAG".data) = docMarkersOutOfOrder
      ∧ containsSub docMarkersOutOfOrder ("FRAG".data) = false := by
  decide

/-- C4, amended.  For every fragment without a backslash (a backslash would be
interpreted by the `re.sub` replacement-template machinery): (1) whenever the
end marker occurs after an occurrence of the start marker, `inject_pubs`
returns the document with the start marker, a newline, the fragment, a newline
and the end marker appearing contiguously — the content strictly between the
matched markers is replaced by the fragment and the markers are preserved;
(2) when the markers are not both present but the document contains the
pubs-classed container opening followed somewhere by the closing group
`</div>\s*</div>\s*</div>\s*</header>`, the fragment is injected directly
after the container opening, followed by a text on which the closing group
matches. -/
theorem inject_pubs_spec (doc frag : List Char) (hb : '\\' ∉ frag) :
    (∀ pre mid post, doc = pre ++ pubsStartM ++ mid ++ pubsEndM ++ post →
        ∃ u v, inject_pubs doc frag
          = u ++ (pubsStartM ++ '\n' :: (frag ++ '\n' :: pubsEndM)) ++ v)
      ∧ ((containsSub doc pubsStartM && containsSub doc pubsEndM) = false →
        ∀ a b rest, doc = a ++ fallbackOpen ++ b ++ rest →
          (tailMatchAt rest).isSome = true →
          ∃ u g2 v, inject_pubs doc frag
              = u ++ (fallbackOpen ++ '\n' :: (frag ++ '\n' :: g2)) ++ v
            ∧ ∃ w, tailMatchAt (g2 ++ w) = some g2.length) := by
  constructor
  · intro pre mid post hdoc
    have hcs : containsSub doc pubsStartM = true := by
      apply containsSub_of_decomp doc pubsStartM pre (mid ++ pubsEndM ++ post)
      rw [hdoc]; simp [List.append_assoc]
    have hce : containsSub doc pubsEndM = true := by
      apply containsSub_of_decomp doc pubsEndM (pre ++ pubsStartM ++ mid) post
      rw [hdoc]; simp [List.append_assoc]
    have hms : (markerMatcher frag (doc.drop pre.length)).isSome = true := by
      apply markerMatcher_isSome frag _ mid post
      rw [hdoc]
      rw [show pre ++ pubsStartM ++ mid ++ pubsEndM ++ post
          = pre ++ (pubsStartM ++ (mid ++ (pubsEndM ++ post))) by simp [List.append_assoc]]
      rw [List.drop_left]
    obtain ⟨b0, hb0⟩ := Option.isSome_iff_exists.mp hms
    have hfm : (firstMatchAux (markerMatcher frag) doc).isSome = true :=
      fmA_isSome_of _ doc pre.length b0 hb0
    obtain ⟨q, hq⟩ := Option.isSome_iff_exists.mp hfm
    obtain ⟨i, n, r⟩ := q
    have hsound := fmA_sound _ doc i (n, r) hq
    have hr := markerMatcher_shape frag _ n r hsound
    have hbr : inject_pubs doc frag = regexSub (markerMatcher frag) doc := by
      unfold inject_pubs
      rw [hcs, hce]
      rfl
    rw [hbr, regexSub_match_some _ _ i n r hq, hr]
    exact ⟨doc.take i, regexSubFuel (markerMatcher frag) doc.length (doc.drop (i + n)), rfl⟩
  · intro hmarkers a b rest hdoc htail
    have hfs : (fallbackMatcher frag (doc.drop a.length)).isSome = true := by
      apply fallbackMatcher_isSome frag _ b rest _ htail
      rw [hdoc]
      rw [show a ++ fallbackOpen ++ b ++ rest
          = a ++ (fallbackOpen ++ (b ++ rest)) by simp [List.append_assoc]]
      rw [List.drop_left]
    obtain ⟨b0, hb0⟩ := Option.isSome_iff_exists.mp hfs
    have hfm : (firstMatchAux (fallbackMatcher frag) doc).isSome = true :=
      fmA_isSome_of _ doc a.length b0 hb0
    obtain ⟨q, hq⟩ := Option.isSome_iff_exists.mp hfm
    obtain ⟨i, n, r⟩ := q
    have hsound := fmA_sound _ doc i (n, r) hq
    obtain ⟨hpref, m, l, hin, hr⟩ := fallbackMatcher_shape frag _ n r hsound
    have hinsound := fmA_sound _ _ m l hin
    have hdd : ((doc.drop i).drop fallbackOpen.length).drop m
        = (doc.drop i).drop (fallbackOpen.length + m) := by
      rw [List.drop_drop]
    have htm : tailMatchAt ((doc.drop i).drop (fallbackOpen.length + m)) = some l := by
      rw [← hdd]; exact hinsound
    have hbr : inject_pubs doc frag = regexSub (fallbackMatcher frag) doc := by
      unfold inject_pubs
      rw [hmarkers]
      rfl
    have hle : l ≤ ((doc.drop i).drop (fallbackOpen.length + m)).length :=
      tailMatchAt_le _ l htm
    refine ⟨doc.take i, ((doc.drop i).drop (fallbackOpen.length + m)).take l,
      regexSubFuel (fallbackMatcher frag) doc.length (doc.drop (i + n)), ?_,
      ((doc.drop i).drop (fallbackOpen.length + m)).drop l, ?_⟩
    · rw [hbr, regexSub_match_some _ _ i n r hq, hr]
    · rw [List.take_append_drop, htm, List.length_take]
      congr 1
      omega

/-- Witness for the amended C4 theorem: the marker branch on a concrete
document with an ordered marker pair. -/
theorem inject_pubs_spec_witness :
    ∃ u v, inject_pubs docMarkersOrdered ("F".data)
      = u ++ (pubsStartM ++ '\n' :: ("F".data ++ '\n' :: pubsEndM)) ++ v :=
  (inject_pubs_spec docMarkersOrdered ("F".data) (by decide)).1
    ("A".data) ("m".data) ("B".data) (by simp [docMarkersOrdered, List.append_assoc])

/-- Literal (backslash-free) template text scans without effect: the template
check over it reduces to the check over what follows. -/
theorem templateOkFuel_append (gro : Nat) :
    ∀ (frag : List Char), '\\' ∉ frag →
      ∀ (fuel : Nat) (tail : List Char),
        templateOkFuel gro (frag.length + fuel) (frag ++ tail)
          = templateOkFuel gro fuel tail := by
  intro frag
  induction frag with
  | nil => intro _ fuel tail; simp
  | cons c f ih =>
    intro hb fuel tail
    have hc : c ≠ '\\' := fun he => hb (List.mem_cons.mpr (Or.inl he.symm))
    have hlen : (c :: f).length + fuel = (f.length + fuel) + 1 := by
      simp only [List.length_cons]
      omega
    rw [List.cons_append, hlen]
    simp only [templateOkFuel]
    rw [if_neg hc]
    exact ih (fun hx => hb (List.mem_cons_of_mem c hx)) fuel tail

/-- The marker branch's template `\1\n + fragment + \n\3` is valid for a
backslash-free fragment (3 groups in the marker pattern). -/
theorem markerTemplate_ok (frag : List Char) (hb : '\\' ∉ frag) :
    templateOk 3 (markerTemplate frag) = true := by
  have h1 : templateOk 3 (markerTemplate frag)
      = templateOkFuel 3 ((frag ++ ['\\', 'n', '\\', '3']).length + 3)
          (frag ++ ['\\', 'n', '\\', '3']) := rfl
  have h2 : (frag ++ ['\\', 'n', '\\', '3']).length + 3 = frag.length + 7 := by
    simp only [List.length_append, List.length_cons, List.length_nil]
  rw [h1, h2, templateOkFuel_append 3 frag hb 7 ['\\', 'n', '\\', '3']]
  decide

/-- The fallback branch's template `\1\n + fragment + \n\2` is valid for a
backslash-free fragment (2 groups in the fallback pattern). -/
theorem fallbackTemplate_ok (frag : List Char) (hb : '\\' ∉ frag) :
    templateOk 2 (fallbackTemplate frag) = true := by
  have h1 : templateOk 2 (fallbackTemplate frag)
      = templateOkFuel 2 ((frag ++ ['\\', 'n', '\\', '2']).length + 3)
          (frag ++ ['\\', 'n', '\\', '2']) := rfl
  have h2 : (frag ++ ['\\', 'n', '\\', '2']).length + 3 = frag.length + 7 := by
    simp only [List.length_append, List.length_cons, List.length_nil]
  rw [h1, h2, templateOkFuel_append 2 frag hb 7 ['\\', 'n', '\\', '2']]
  decide

/-- When no fallback-pattern decomposition exists, the fallback substitution
leaves the document unchanged. -/
theorem fallbackSub_unchanged (doc frag : List Char)
    (h2 : ¬ ∃ a b rest, doc = a ++ fallbackOpen ++ b ++ rest
        ∧ (tailMatchAt rest).isSome = true) :
    regexSub (fallbackMatcher frag) doc = doc := by
  cases hfm : firstMatchAux (fallbackMatcher frag) doc with
  | none => exact regexSub_match_none _ _ hfm
  | some q =>
    exfalso
    obtain ⟨i, n, r⟩ := q
    have hsound := fmA_sound _ doc i (n, r) hfm
    obtain ⟨hpref, m, l, hin, hr⟩ := fallbackMatcher_shape frag _ n r hsound
    have hinsound := fmA_sound _ _ m l hin
    obtain ⟨t, hpre⟩ := List.isPrefixOf_iff_prefix.mp hpref
    apply h2
    refine ⟨doc.take i, ((doc.drop i).drop fallbackOpen.length).take m,
      (((doc.drop i).drop fallbackOpen.length).take m
        ++ ((doc.drop i).drop fallbackOpen.length).drop m).drop m, ?_, ?_⟩
    · rw [List.take_append_drop]
      rw [show doc.take i ++ fallbackOpen
            ++ ((doc.drop i).drop fallbackOpen.length).take m
            ++ ((doc.drop i).drop fallbackOpen.length).drop m
          = doc.take i ++ (fallbackOpen ++ ((doc.drop i).drop fallbackOpen.length))
          by simp [List.append_assoc, List.take_append_drop]]
      rw [show fallbackOpen ++ (doc.drop i).drop fallbackOpen.length = doc.drop i by
        rw [← hpre, List.drop_left]]
      rw [List.take_append_drop]
    · rw [List.take_append_drop]
      exact Option.isSome_iff_exists.mpr ⟨l, hinsound⟩

/-- C10 counterexample.  The claim promises that no error is raised for every
fragment, but `re.sub` parses its replacement template eagerly, before any
scanning: on a document matching neither pattern (here one containing neither
the marker pair nor even the fallback container opening), the fragment
backslash-`q` makes the template invalid (`bad escape \q`) and `inject_pubs`
raises `re.error` instead of returning the document. -/
theorem inject_pubs_bad_escape_raises :
    (containsSub ("hello".data) pubsStartM && containsSub ("hello".data) pubsEndM) = false
      ∧ containsSub ("hello".data) fallbackOpen = false
      ∧ inject_pubs_total ("hello".data) ['\\', 'q'] = none := by
  decide

/-- C10, amended.  For every fragment containing no backslash — so the
replacement template `re.sub` parses eagerly is valid and expands to the
fragment itself — a document that does not contain both sentinel markers and
has no occurrence of the fallback pattern is returned completely unchanged,
and no error is raised. -/
theorem inject_pubs_unchanged (doc frag : List Char)
    (hb : '\\' ∉ frag)
    (h1 : (containsSub doc pubsStartM && containsSub doc pubsEndM) = false)
    (h2 : ¬ ∃ a b rest, doc = a ++ fallbackOpen ++ b ++ rest
        ∧ (tailMatchAt rest).isSome = true) :
    inject_pubs_total doc frag = some doc ∧ inject_pubs doc frag = doc := by
  have hsub := fallbackSub_unchanged doc frag h2
  constructor
  · unfold inject_pubs_total
    rw [h1, fallbackTemplate_ok frag hb, hsub]
    rfl
  · unfold inject_pubs
    rw [h1, hsub]
    rfl

/-- Witness for the amended C10 theorem on a concrete document containing
neither pattern and a backslash-free fragment. -/
theorem inject_pubs_unchanged_witness :
    inject_pubs_total ("hello".data) ("F".data) = some ("hello".data)
      ∧ inject_pubs ("hello".data) ("F".data) = "hello".data := by
  apply inject_pubs_unchanged ("hello".data) ("F".data) (by decide) (by decide)
  intro hex
  obtain ⟨a, b, rest, heq, _⟩ := hex
  have hcf : containsSub ("hello".data) fallbackOpen = true := by
    apply containsSub_of_decomp _ _ a (b ++ rest)
    rw [heq]; simp [List.append_assoc]
  exact absurd hcf (by decide)

/-- What a successful character search means: the index is in range, at or
after the start, and the character is there. -/
theorem findCharFrom_facts (bib : List Char) (c : Char) (i r : Nat)
    (h : findCharFrom bib c i = some r) :
    i ≤ r ∧ r < bib.length ∧ bib.drop r = c :: bib.drop (r + 1) := by
  unfold findCharFrom at h
  cases hfm : firstMatchAux
      (fun s => match s with | d :: _ => if d = c then some () else none | [] => none)
      (bib.drop i) with
  | none => rw [hfm] at h; cases h
  | some p =>
    obtain ⟨j, u⟩ := p
    rw [hfm] at h
    simp only [Option.some.injEq] at h
    subst h
    have hs := fmA_sound _ _ j u hfm
    rw [List.drop_drop] at hs
    cases hd : bib.drop (i + j) with
    | nil => rw [hd] at hs; cases hs
    | cons d t =>
      rw [hd] at hs
      have hdc : d = c := by
        by_contra hne
        simp [hne] at hs
      subst hdc
      have hlen : i + j < bib.length := by
        by_contra hge
        push_neg at hge
        rw [List.drop_eq_nil_of_le hge] at hd
        cases hd
      have ht : bib.drop (i + j + 1) = t := by
        rw [← List.drop_drop, hd]
        rfl
      refine ⟨by omega, by omega, ?_⟩
      rw [ht]

/-- The brace-depth loop consumes at most the remaining text. -/
theorem scanDepth_le (l : List Char) : ∀ d : Nat, (scanDepth l d).1 ≤ l.length := by
  induction l with
  | nil => intro d; simp [scanDepth]
  | cons c rest ih =>
    intro d
    simp only [scanDepth]
    split
    · simp
    · simpa using Nat.succ_le_succ (ih _)

/-- The outer entry loop always returns when the fuel exceeds the remaining
text: every iteration strictly advances the position. -/
theorem parseLoop_isSome (bib : List Char) :
    ∀ (fuel i : Nat) (acc : List Entry), bib.length - i < fuel →
      (parseLoop bib fuel i acc).isSome = true := by
  intro fuel
  induction fuel with
  | zero => intro i acc h; omega
  | succ fuel ih =>
    intro i acc h
    cases h1 : findCharFrom bib '@' i with
    | none => simp [parseLoop, h1]
    | some a0 =>
      cases h2 : findCharFrom bib lbrace a0 with
      | none => simp [parseLoop, h1, h2]
      | some j =>
        cases h3 : findCharFrom bib ',' j with
        | none => simp [parseLoop, h1, h2, h3]
        | some k =>
          obtain ⟨hia, hal, hda⟩ := findCharFrom_facts bib '@' i a0 h1
          obtain ⟨haj, hjl, hdj⟩ := findCharFrom_facts bib lbrace a0 j h2
          obtain ⟨hjk, hkl, hdk⟩ := findCharFrom_facts bib ',' j k h3
          have hne1 : a0 ≠ j := by
            intro he
            rw [he, hdj] at hda
            injection hda with h4 h5
            exact absurd h4 (by decide)
          have hne2 : j ≠ k := by
            intro he
            rw [he, hdk] at hdj
            injection hdj with h4 h5
            exact absurd h4 (by decide)
          have hsd := scanDepth_le (bib.drop (k + 1)) 1
          rw [List.length_drop] at hsd
          simp only [parseLoop, h1, h2, h3]
          apply ih
          omega

/-- C6.  The parser terminates and returns a (possibly empty) record list for
every input: the fuel `length + 1` with which `parse_bibtex_entries` runs its
loop is always sufficient, so the embedded loop never aborts.  Every guarded
index access and every malformed shape (no `@`, no `{`, no `,`, unclosed
braces) flows into an early `break` or a partial record, never an error. -/
theorem parse_bibtex_entries_total (bib : List Char) :
    ∃ es, parse_bibtex_entries bib = some es :=
  Option.isSome_iff_exists.mp
    (parseLoop_isSome bib (bib.length + 1) 0 [] (by omega))

/-- The depth scan from depth `0` consumes nothing. -/
theorem scanDepth_zero (l : List Char) : scanDepth l 0 = (0, 0) := by
  cases l with
  | nil => rfl
  | cons c rest => simp [scanDepth]

/-- When the depth scan closes (reaches depth `0`), it consumed at least one
character and the consumed text ends with the closing brace that closed it. -/
theorem scanDepth_closed (l : List Char) : ∀ d : Nat, d ≠ 0 → (scanDepth l d).2 = 0 →
    1 ≤ (scanDepth l d).1
      ∧ l.take ((scanDepth l d).1) = l.take ((scanDepth l d).1 - 1) ++ [rbrace] := by
  induction l with
  | nil =>
    intro d hd h2
    simp [scanDepth] at h2
    exact absurd h2 hd
  | cons c rest ih =>
    intro d hd h2
    simp only [scanDepth, if_neg hd] at h2 ⊢
    by_cases hc : (if c = lbrace then d + 1 else if c = rbrace then d - 1 else d) = 0
    · have hcr : c = rbrace := by
        by_cases h3 : c = lbrace
        · rw [if_pos h3] at hc; omega
        · rw [if_neg h3] at hc
          by_cases h4 : c = rbrace
          · exact h4
          · rw [if_neg h4] at hc; exact absurd hc hd
      rw [hc, scanDepth_zero]
      subst hcr
      simp
    · have ih2 := ih _ hc (by simpa using h2)
      obtain ⟨hge, heq⟩ := ih2
      constructor
      · omega
      · obtain ⟨m, hm⟩ : ∃ m,
            (scanDepth rest (if c = lbrace then d + 1 else if c = rbrace then d - 1 else d)).1
              = m + 1 :=
          ⟨(scanDepth rest (if c = lbrace then d + 1 else if c = rbrace then d - 1 else d)).1
            - 1, by omega⟩
        rw [hm] at heq ⊢
        simp only [Nat.add_sub_cancel] at heq ⊢
        rw [List.take_succ_cons, List.take_succ_cons, heq]
        rfl

/-- Slices concatenate at an interior point. -/
theorem listSlice_append (bib : List Char) (a b c : Nat) (h1 : a ≤ b) (h2 : b ≤ c) :
    listSlice bib a c = listSlice bib a b ++ listSlice bib b c := by
  unfold listSlice
  rw [show c - a = (b - a) + (c - b) by omega, List.take_add, List.drop_drop,
    show a + (b - a) = b by omega]

/-- Every record the entry loop produces satisfies the raw-span property. -/
theorem parseLoop_raw_inv (bib : List Char) :
    ∀ (fuel i : Nat) (acc es : List Entry),
      parseLoop bib fuel i acc = some es →
      (∀ e ∈ acc, rawSpanOf bib e) → ∀ e ∈ es, rawSpanOf bib e := by
  intro fuel
  induction fuel with
  | zero => intro i acc es h hacc; cases h
  | succ fuel ih =>
    intro i acc es h hacc
    cases h1 : findCharFrom bib '@' i with
    | none =>
      simp only [parseLoop, h1, Option.some.injEq] at h
      subst h; exact hacc
    | some a0 =>
      cases h2 : findCharFrom bib lbrace a0 with
      | none =>
        simp only [parseLoop, h1, h2, Option.some.injEq] at h
        subst h; exact hacc
      | some j =>
        cases h3 : findCharFrom bib ',' j with
        | none =>
          simp only [parseLoop, h1, h2, h3, Option.some.injEq] at h
          subst h; exact hacc
        | some k =>
          simp only [parseLoop, h1, h2, h3] at h
          apply ih _ _ _ h
          intro e he
          rcases List.mem_append.mp he with hold | hnew
          · exact hacc e hold
          · rw [List.mem_singleton] at hnew
            subst hnew
            obtain ⟨hia, hal, hda⟩ := findCharFrom_facts bib '@' i a0 h1
            obtain ⟨haj, hjl, hdj⟩ := findCharFrom_facts bib lbrace a0 j h2
            obtain ⟨hjk, hkl, hdk⟩ := findCharFrom_facts bib ',' j k h3
            have hsd := scanDepth_le (bib.drop (k + 1)) 1
            rw [List.length_drop] at hsd
            refine ⟨a0, k + 1 + (scanDepth (bib.drop (k + 1)) 1).1,
              (scanDepth (bib.drop (k + 1)) 1).2, ?_, hda, rfl, ?_, by omega, by omega, ?_⟩
            · simp [entryEnd, h2, h3]
            · show (listSlice bib a0 (k + 1 + (scanDepth (bib.drop (k + 1)) 1).1)).head?
                = some '@'
              unfold listSlice
              rw [hda]
              obtain ⟨m, hm⟩ : ∃ m, k + 1 + (scanDepth (bib.drop (k + 1)) 1).1 - a0
                  = m + 1 :=
                ⟨k + 1 + (scanDepth (bib.drop (k + 1)) 1).1 - a0 - 1, by omega⟩
              rw [hm, List.take_succ_cons]
              rfl
            · intro hd0
              have hcl := scanDepth_closed (bib.drop (k + 1)) 1 (by decide) hd0
              have hsplit := listSlice_append bib a0 (k + 1)
                (k + 1 + (scanDepth (bib.drop (k + 1)) 1).1) (by omega) (by omega)
              have heq2 : listSlice bib (k + 1) (k + 1 + (scanDepth (bib.drop (k + 1)) 1).1)
                  = (bib.drop (k + 1)).take ((scanDepth (bib.drop (k + 1)) 1).1) := by
                unfold listSlice
                congr 1
                omega
              refine ⟨listSlice bib a0 (k + 1)
                ++ (bib.drop (k + 1)).take ((scanDepth (bib.drop (k + 1)) 1).1 - 1), ?_⟩
              rw [hsplit, heq2, hcl.2, List.append_assoc]

/-- C7.  Every record `parse_bibtex_entries` produces carries, in `raw`,
exactly the original contiguous source span `bib[a0:idx]` of its entry — the
verbatim text from its `@` marker to the bound the parser's brace-depth scan
determined — and when that scan closed (a well-formed entry), the span ends
with the matching closing brace. -/
theorem parse_raw_is_source_span (bib : List Char) (e : Entry)
    (h : e ∈ parseEntries bib) : rawSpanOf bib e := by
  cases hp : parse_bibtex_entries bib with
  | none =>
    have := parseLoop_isSome bib (bib.length + 1) 0 [] (by omega)
    rw [show parseLoop bib (bib.length + 1) 0 [] = parse_bibtex_entries bib from rfl, hp] at this
    cases this
  | some es =>
    have hes : parseEntries bib = es := by
      unfold parseEntries
      rw [hp]
      rfl
    rw [hes] at h
    exact parseLoop_raw_inv bib (bib.length + 1) 0 [] es hp (by simp) e h

/-- Witness for C7 on a concrete well-formed entry. -/
theorem parse_raw_is_source_span_witness : rawSpanOf bibSmall entrySmall :=
  parse_raw_is_source_span bibSmall entrySmall (by decide)

/-- Invariant of the `by_year` fold: every bucket is nonempty-keyed and holds
exactly the processed records with that stripped year, in order; and every
processed record with a year has a bucket. -/
theorem by_year_fold_inv (l : List Entry) :
    ∀ (d : List (List Char × List Entry)) (processed : List Entry),
      (∀ p ∈ d, p.1.isEmpty = false
        ∧ p.2 = processed.filter (fun e => stripYear e = p.1)) →
      (∀ e ∈ processed, (stripYear e).isEmpty = false → ∃ p ∈ d, p.1 = stripYear e) →
      (∀ p ∈ List.foldl
          (fun d e =>
            let y := stripYear e
            if y.isEmpty then d else addToGroups d y e) d l,
          p.1.isEmpty = false
            ∧ p.2 = (processed ++ l).filter (fun e => stripYear e = p.1))
        ∧ (∀ e ∈ processed ++ l, (stripYear e).isEmpty = false →
            ∃ p ∈ List.foldl
              (fun d e =>
                let y := stripYear e
                if y.isEmpty then d else addToGroups d y e) d l,
              p.1 = stripYear e) := by
  induction l with
  | nil =>
    intro d processed h1 h2
    simp only [List.foldl_nil, List.append_nil]
    exact ⟨h1, h2⟩
  | cons e rest ih =>
    intro d processed h1 h2
    simp only [List.foldl_cons]
    have hshape : (processed ++ e :: rest) = (processed ++ [e]) ++ rest := by simp
    by_cases hy : (stripYear e).isEmpty
    · have h1' : ∀ p ∈ d, p.1.isEmpty = false
          ∧ p.2 = (processed ++ [e]).filter (fun e2 => stripYear e2 = p.1) := by
        intro p hp
        obtain ⟨hk, hv⟩ := h1 p hp
        refine ⟨hk, ?_⟩
        rw [List.filter_append, hv]
        have : (stripYear e = p.1) = False := by
          simp only [eq_iff_iff, iff_false]
          intro hcontra
          rw [List.isEmpty_iff] at hy
          rw [hy] at hcontra
          rw [← hcontra] at hk
          simp at hk
        simp [this]
      have h2' : ∀ e2 ∈ processed ++ [e], (stripYear e2).isEmpty = false →
          ∃ p ∈ d, p.1 = stripYear e2 := by
        intro e2 he2 hy2
        rcases List.mem_append.mp he2 with hold | hnew
        · exact h2 e2 hold hy2
        · rw [List.mem_singleton] at hnew
          subst hnew
          rw [hy] at hy2
          cases hy2
      have := ih d (processed ++ [e]) h1' h2'
      rw [hshape]
      simpa [hy] using this
    · rw [Bool.not_eq_true] at hy
      have hstep : (let y := stripYear e
          if y.isEmpty then d else addToGroups d y e) = addToGroups d (stripYear e) e := by
        simp [hy]
      have h1' : ∀ p ∈ addToGroups d (stripYear e) e, p.1.isEmpty = false
          ∧ p.2 = (processed ++ [e]).filter (fun e2 => stripYear e2 = p.1) := by
        intro p hp
        unfold addToGroups at hp
        by_cases hex : d.any (fun q => q.1 = stripYear e)
        · rw [if_pos hex] at hp
          obtain ⟨q, hq, hupd⟩ := List.mem_map.mp hp
          obtain ⟨hk, hv⟩ := h1 q hq
          by_cases hqy : q.1 = stripYear e
          · rw [if_pos hqy] at hupd
            subst hupd
            refine ⟨hk, ?_⟩
            simp only
            rw [List.filter_append, hv]
            congr 1
            simp [hqy.symm]
          · rw [if_neg hqy] at hupd
            subst hupd
            refine ⟨hk, ?_⟩
            rw [List.filter_append, hv]
            have : (stripYear e = q.1) = False := by
              simp only [eq_iff_iff, iff_false]
              intro hcontra
              exact hqy hcontra.symm
            simp [this]
        · rw [if_neg hex] at hp
          rcases List.mem_append.mp hp with hold | hnew
          · obtain ⟨hk, hv⟩ := h1 p hold
            refine ⟨hk, ?_⟩
            rw [List.filter_append, hv]
            rw [Bool.not_eq_true, List.any_eq_false] at hex
            have : (stripYear e = p.1) = False := by
              simp only [eq_iff_iff, iff_false]
              intro hcontra
              exact absurd (by simpa using hcontra.symm) (hex p hold)
            simp [this]
          · rw [List.mem_singleton] at hnew
            subst hnew
            refine ⟨hy, ?_⟩
            simp only
            rw [List.filter_append]
            have hemp : processed.filter (fun e2 => stripYear e2 = stripYear e) = [] := by
              rw [List.filter_eq_nil_iff]
              intro e2 he2
              simp only [decide_eq_true_eq]
              intro hcontra
              obtain ⟨q, hq, hqk⟩ := h2 e2 he2 (by rw [hcontra]; exact hy)
              rw [Bool.not_eq_true, List.any_eq_false] at hex
              exact (hex q hq) (by simp [hqk, hcontra])
            rw [hemp]
            simp
      have h2' : ∀ e2 ∈ processed ++ [e], (stripYear e2).isEmpty = false →
          ∃ p ∈ addToGroups d (stripYear e) e, p.1 = stripYear e2 := by
        intro e2 he2 hy2
        unfold addToGroups
        rcases List.mem_append.mp he2 with hold | hnew
        · obtain ⟨q, hq, hqk⟩ := h2 e2 hold hy2
          by_cases hex : d.any (fun r => r.1 = stripYear e)
          · rw [if_pos hex]
            refine ⟨if q.1 = stripYear e then (q.1, q.2 ++ [e]) else q, ?_, ?_⟩
            · apply List.mem_map.mpr
              exact ⟨q, hq, by split <;> rfl⟩
            · split <;> simpa using hqk
          · rw [if_neg hex]
            exact ⟨q, List.mem_append.mpr (Or.inl hq), hqk⟩
        · rw [List.mem_singleton] at hnew
          subst hnew
          by_cases hex : d.any (fun r => r.1 = stripYear e2)
          · rw [if_pos hex]
            rw [List.any_eq_true] at hex
            obtain ⟨q, hq, hqk⟩ := hex
            simp only [decide_eq_true_eq] at hqk
            refine ⟨(q.1, q.2 ++ [e2]), ?_, by simpa using hqk⟩
            apply List.mem_map.mpr
            exact ⟨q, hq, by rw [if_pos hqk]⟩
          · rw [if_neg hex]
            exact ⟨(stripYear e2, [e2]), List.mem_append.mpr (Or.inr (by simp)), rfl⟩
      have hy2 : ¬(stripYear e = []) := by simpa using hy
      have := ih (addToGroups d (stripYear e) e) (processed ++ [e]) h1' h2'
      rw [hshape]
      simpa [hy2] using this

/-- The `by_year` buckets: nonempty keys, bucket contents are the ordered
filter of the input, and every record with a year has a bucket. -/
theorem by_year_spec (entries : List Entry) :
    (∀ p ∈ by_year entries, p.1.isEmpty = false
      ∧ p.2 = entries.filter (fun e => stripYear e = p.1))
      ∧ (∀ e ∈ entries, (stripYear e).isEmpty = false →
          ∃ p ∈ by_year entries, p.1 = stripYear e) := by
  have := by_year_fold_inv entries [] [] (by simp) (by simp)
  simpa [by_year] using this

/-- Membership in a descending insertion. -/
theorem insertDesc_mem (p q : List Char × List Entry) :
    ∀ l, q ∈ insertDesc p l ↔ q = p ∨ q ∈ l := by
  intro l
  induction l with
  | nil => simp [insertDesc]
  | cons r t ih =>
    simp only [insertDesc]
    split
    · simp only [List.mem_cons, ih]
      tauto
    · simp only [List.mem_cons]

/-- Membership in the insertion-sort fold. -/
theorem sortFold_mem (q : List Char × List Entry) :
    ∀ (l acc : List (List Char × List Entry)),
      q ∈ List.foldl (fun acc p => insertDesc p acc) acc l ↔ q ∈ acc ∨ q ∈ l := by
  intro l
  induction l with
  | nil => intro acc; simp
  | cons p t ih =>
    intro acc
    simp only [List.foldl_cons]
    rw [ih, insertDesc_mem]
    simp only [List.mem_cons]
    tauto

/-- Descending insertion preserves the descending-order invariant. -/
theorem insertDesc_sorted (p : List Char × List Entry) :
    ∀ l, List.Pairwise (fun x y => yearNum y.1 ≤ yearNum x.1) l →
      List.Pairwise (fun x y => yearNum y.1 ≤ yearNum x.1) (insertDesc p l) := by
  intro l
  induction l with
  | nil => intro h; simp [insertDesc]
  | cons q t ih =>
    intro h
    rw [List.pairwise_cons] at h
    obtain ⟨hq, ht⟩ := h
    simp only [insertDesc]
    split
    · rename_i hle
      rw [List.pairwise_cons]
      refine ⟨?_, ih ht⟩
      intro x hx
      rcases (insertDesc_mem p x t).mp hx with hxp | hxt
      · subst hxp; exact hle
      · exact hq x hxt
    · rename_i hgt
      push_neg at hgt
      rw [List.pairwise_cons]
      refine ⟨?_, List.pairwise_cons.mpr ⟨hq, ht⟩⟩
      intro x hx
      rcases List.mem_cons.mp hx with hxq | hxt
      · subst hxq; omega
      · have := hq x hxt; omega

/-- The insertion-sort fold produces a descending-ordered list. -/
theorem sortFold_sorted :
    ∀ (l acc : List (List Char × List Entry)),
      List.Pairwise (fun x y => yearNum y.1 ≤ yearNum x.1) acc →
      List.Pairwise (fun x y => yearNum y.1 ≤ yearNum x.1)
        (List.foldl (fun acc p => insertDesc p acc) acc l) := by
  intro l
  induction l with
  | nil => intro acc h; simpa using h
  | cons p t ih =>
    intro acc h
    simp only [List.foldl_cons]
    exact ih _ (insertDesc_sorted p acc h)

/-- C8.  The year buckets `build_pubs_html` renders: every bucket has a
nonempty year key and contains exactly the input records with that stripped
year, in source order (the ordered filter); the buckets are ordered by
descending numeric year; records lacking a year value appear in no bucket,
and every record with one appears in its year's bucket. -/
theorem build_pubs_groups_spec (entries : List Entry) :
    (∀ p ∈ build_pubs_groups entries,
        p.1.isEmpty = false
          ∧ p.2 = entries.filter (fun e => stripYear e = p.1))
      ∧ List.Pairwise (fun p q => yearNum q.1 ≤ yearNum p.1) (build_pubs_groups entries)
      ∧ (∀ e ∈ entries, (stripYear e).isEmpty = false →
          ∃ p ∈ build_pubs_groups entries, p.1 = stripYear e ∧ e ∈ p.2) := by
  obtain ⟨h1, h2⟩ := by_year_spec entries
  refine ⟨?_, ?_, ?_⟩
  · intro p hp
    unfold build_pubs_groups at hp
    rcases (sortFold_mem p (by_year entries) []).mp hp with hnil | hmem
    · cases hnil
    · exact h1 p hmem
  · exact sortFold_sorted (by_year entries) [] (by simp)
  · intro e he hy
    obtain ⟨p, hpd, hpk⟩ := h2 e he hy
    refine ⟨p, ?_, hpk, ?_⟩
    · unfold build_pubs_groups
      exact (sortFold_mem p (by_year entries) []).mpr (Or.inr hpd)
    · rw [(h1 p hpd).2]
      apply List.mem_filter.mpr
      refine ⟨he, ?_⟩
      simp [hpk]

/-- Witness for C8 at the spec's concrete corpus: years 2021, 2019, 2021 give
a bucket of two records before a bucket of one. -/
theorem build_pubs_groups_spec_witness :
    ("2021".data.isEmpty = false
        ∧ [entryY1, entryY3]
          = [entryY1, entryY2, entryY3].filter (fun e => stripYear e = "2021".data))
      ∧ build_pubs_groups [entryY1, entryY2, entryY3]
          = [("2021".data, [entryY1, entryY3]), ("2019".data, [entryY2])] := by
  constructor
  · exact (build_pubs_groups_spec [entryY1, entryY2, entryY3]).1
      ("2021".data, [entryY1, entryY3]) (by decide)
  · decide

/-- The head surviving `dropWhile` fails the predicate. -/
theorem dropWhile_head_false (p : Char → Bool) (l : List Char) (c : Char) (t : List Char)
    (h : l.dropWhile p = c :: t) : p c = false := by
  have hw := List.head?_dropWhile_not p l
  rw [h] at hw
  simpa using hw

/-- A nonempty stripped string starts with a non-whitespace character. -/
theorem pyStrip_head (s : List Char) (c : Char) (t : List Char)
    (h : pyStrip s = c :: t) : isPySpace c = false := by
  unfold pyStrip at h
  obtain ⟨u, hu⟩ := List.dropWhile_suffix
    (l := (s.dropWhile isPySpace).reverse) isPySpace
  have hyeq : s.dropWhile isPySpace
      = ((s.dropWhile isPySpace).reverse.dropWhile isPySpace).reverse ++ u.reverse := by
    have := congrArg List.reverse hu
    simpa using this.symm
  rw [h] at hyeq
  exact dropWhile_head_false isPySpace s c (t ++ u.reverse)
    (by rw [hyeq, List.cons_append])

/-- A nonempty stripped string ends with a non-whitespace character. -/
theorem pyStrip_last (s : List Char) (t : List Char) (c : Char)
    (h : pyStrip s = t ++ [c]) : isPySpace c = false := by
  unfold pyStrip at h
  have h2 : (s.dropWhile isPySpace).reverse.dropWhile isPySpace = c :: t.reverse := by
    have := congrArg List.reverse h
    simpa using this
  exact dropWhile_head_false isPySpace _ c t.reverse h2

/-- A string whose first and last characters are non-whitespace is fixed by
stripping. -/
theorem pyStrip_eq_self (x : List Char)
    (h1 : ∀ c, x.head? = some c → isPySpace c = false)
    (h2 : ∀ c, x.getLast? = some c → isPySpace c = false) :
    pyStrip x = x := by
  unfold pyStrip
  have hd : x.dropWhile isPySpace = x := by
    cases x with
    | nil => rfl
    | cons c t =>
      rw [List.dropWhile_cons_of_neg]
      rw [h1 c rfl]
      simp
  rw [hd]
  have hr : x.reverse.dropWhile isPySpace = x.reverse := by
    cases hxr : x.reverse with
    | nil => rfl
    | cons c t =>
      rw [List.dropWhile_cons_of_neg]
      have hlast : x.getLast? = some c := by
        rw [← List.head?_reverse, hxr]
        rfl
      rw [h2 c hlast]
      simp
  rw [hr, List.reverse_reverse]

/-- For a well-formed `"Last, First"` name (both sides nonempty after
stripping), the loop body of `format_authors` computes the spec's
`"First Last"` conversion. -/
theorem formatOne_eq_spec (n : List Char)
    (hc : n.contains ',' = true)
    (hf : pyStrip ((n.dropWhile (fun c => c ≠ ',')).drop 1) ≠ [])
    (hl : pyStrip (n.takeWhile (fun c => c ≠ ',')) ≠ []) :
    formatOne n = displayNameSpec n := by
  obtain ⟨f0, ft, hF⟩ : ∃ f0 ft,
      pyStrip ((n.dropWhile (fun c => c ≠ ',')).drop 1) = f0 :: ft := by
    cases hx : pyStrip ((n.dropWhile (fun c => c ≠ ',')).drop 1) with
    | nil => exact absurd hx hf
    | cons a b => exact ⟨a, b, rfl⟩
  rcases List.eq_nil_or_concat (pyStrip (n.takeWhile (fun c => c ≠ ','))) with hnil | hcon
  · exact absurd hnil hl
  obtain ⟨lt, lc, hLl⟩ := hcon
  rw [List.concat_eq_append] at hLl
  have hf0 : isPySpace f0 = false := pyStrip_head _ f0 ft hF
  have hlc : isPySpace lc = false := pyStrip_last _ lt lc hLl
  unfold formatOne displayNameSpec
  rw [if_pos hc, if_pos hc]
  apply pyStrip_eq_self
  · intro c h
    rw [hF] at h
    simp only [List.cons_append, List.head?_cons, Option.some.injEq] at h
    rw [← h]
    exact hf0
  · intro c h
    rw [hF, hLl] at h
    have hgl : ((f0 :: ft) ++ ' ' :: (lt ++ [lc])).getLast? = some lc := by
      rw [show (f0 :: ft) ++ ' ' :: (lt ++ [lc]) = ((f0 :: ft) ++ ' ' :: lt) ++ [lc]
        by simp]
      exact List.getLast?_concat _
    rw [hgl] at h
    simp only [Option.some.injEq] at h
    rw [← h]
    exact hlc

/-- C9.  Refinement of the author formatter against the spec's wording: for an
author string whose `" and "`-separated parts are exactly the given names —
each already stripped, nonempty and newline-free, and each comma-carrying name
having nonempty text on both sides of its first comma — `format_authors`
produces the comma-joined list of spec-converted names: every `"Last, First"`
becomes `"First Last"` and every comma-free name passes through unchanged. -/
theorem format_authors_refines_spec (s : List Char) (names : List (List Char))
    (hsplit : splitOnToken sepAnd s = names)
    (hnl : '\n' ∉ s)
    (hstripped : ∀ n ∈ names, pyStrip n = n ∧ n ≠ [])
    (hcommas : ∀ n ∈ names, n.contains ',' = true →
      pyStrip ((n.dropWhile (fun c => c ≠ ',')).drop 1) ≠ []
        ∧ pyStrip (n.takeWhile (fun c => c ≠ ',')) ≠ []) :
    format_authors s = joinSep (", ".data) (names.map displayNameSpec) := by
  unfold format_authors
  have hmap : s.map (fun c => if c = '\n' then ' ' else c) = s := by
    rw [show s.map (fun c => if c = '\n' then ' ' else c) = s.map id from
      List.map_congr_left (fun c hc => by
        have : c ≠ '\n' := fun he => hnl (he ▸ hc)
        simp [this])]
    exact List.map_id s
  rw [hmap, hsplit]
  have hmp : names.map pyStrip = names := by
    rw [show names.map pyStrip = names.map id from
      List.map_congr_left (fun n hn => (hstripped n hn).1)]
    exact List.map_id names
  rw [hmp]
  have hfil : names.filter (fun p => !p.isEmpty) = names := by
    rw [List.filter_eq_self]
    intro n hn
    simpa [List.isEmpty_iff] using (hstripped n hn).2
  rw [hfil]
  show joinSep (", ".data) (List.map formatOne names)
    = joinSep (", ".data) (List.map displayNameSpec names)
  congr 1
  apply List.map_congr_left
  intro n hn
  by_cases hc : n.contains ',' = true
  · exact formatOne_eq_spec n hc ((hcommas n hn hc).1) ((hcommas n hn hc).2)
  · unfold formatOne displayNameSpec
    rw [if_neg hc, if_neg hc]

/-- Witness for C9 at the spec's example. -/
theorem format_authors_refines_spec_witness :
    format_authors ("Smith, Jane and Doe, John".data) = "Jane Smith, John Doe".data := by
  have h := format_authors_refines_spec ("Smith, Jane and Doe, John".data)
    ["Smith, Jane".data, "Doe, John".data] (by decide) (by decide) (by decide) (by decide)
  rw [h]
  decide

